import Mathlib

/-!
Verification of the Apple HIG scraper (`scripts/scrape-apple-hig.py`).

The script's URL handling is built on Python's `urllib.parse`
(`urlparse`, `urljoin`).  We embed the relevant fragment of that library
faithfully, working over `List Char`:

* `urlsplitCL` mirrors `urllib.parse.urlsplit`: optional scheme (letters,
  digits, `+`, `-`, `.` before the first `:`, first char a letter,
  lowercased), netloc after a leading `//` up to the next `/`, `?` or `#`,
  then fragment split at the first `#`, then query split at the first `?`.
* `splitparamsCL` mirrors `urllib.parse._splitparams`: parameters are the
  part after the first `;` in the last path segment.
* `urlparseCL` = `urlsplit` + params splitting, as in `urllib.parse.urlparse`.
* `urljoinCL` mirrors `urllib.parse.urljoin` for the schemes in
  `uses_relative` / `uses_netloc`, including dot-segment resolution.

Simplifications (documented, irrelevant to the URLs the scraper handles):
the WHATWG control-character/whitespace stripping of modern CPython and the
IPv6 bracket `ValueError` are not modelled; inputs are assumed free of
control characters.
-/

/-- Python ASCII lower-case table: the 26 pairs of `str.lower` restricted to
ASCII letters (the only characters the scraper ever lower-cases are URL
schemes and error messages, which are ASCII). -/
def lowerPairs : List (Char × Char) :=
  [('A','a'), ('B','b'), ('C','c'), ('D','d'), ('E','e'), ('F','f'), ('G','g'),
   ('H','h'), ('I','i'), ('J','j'), ('K','k'), ('L','l'), ('M','m'), ('N','n'),
   ('O','o'), ('P','p'), ('Q','q'), ('R','r'), ('S','s'), ('T','t'), ('U','u'),
   ('V','v'), ('W','w'), ('X','x'), ('Y','y'), ('Z','z')]

/-- ASCII lower-casing of one character (`str.lower` on ASCII input). -/
def pyLower (c : Char) : Char :=
  ((lowerPairs.find? (fun p => p.1 == c)).map (fun p => p.2)).getD c

/-- Lower-case a character list (`str.lower` on an ASCII string). -/
def lowerStr (l : List Char) : List Char := l.map pyLower

/-- `urllib.parse.scheme_chars`: characters allowed in a URL scheme. -/
def schemeChar (c : Char) : Bool :=
  c.isAlpha || c.isDigit || c == '+' || c == '-' || c == '.'

/-- Characters that terminate the netloc in `urlsplit` (`'/'`, `'?'`, `'#'`). -/
def netlocEnd (c : Char) : Bool := c == '/' || c == '?' || c == '#'

/-- Scan for `prefix : rest` where every character before the colon is a
scheme character; mirrors `url.find(':')` plus the `scheme_chars` check in
`urlsplit` (a non-scheme character before the first colon means no scheme). -/
def takeScheme : List Char → Option (List Char × List Char)
  | [] => none
  | c :: cs =>
    if c == ':' then some ([], cs)
    else if schemeChar c then
      match takeScheme cs with
      | some (s, r) => some (c :: s, r)
      | none => none
    else none

/-- The scheme step of `urlsplit`: a scheme is recognised when the first
colon exists at position `> 0`, the first character is an ASCII letter and
everything before the colon is in `scheme_chars`; the scheme is lower-cased.
Otherwise the caller-supplied default scheme is used and the URL is left
untouched. -/
def splitSchemeCL (defaultScheme url : List Char) : List Char × List Char :=
  match takeScheme url with
  | some (c :: s, r) =>
    if c.isAlpha then ((c :: s).map pyLower, r) else (defaultScheme, url)
  | _ => (defaultScheme, url)

/-- The netloc step of `urlsplit` (`url[:2] == '//'`): after a leading `//`,
the netloc extends up to the next `/`, `?` or `#`. -/
def splitNetlocCL (l : List Char) : List Char × List Char :=
  match l with
  | c1 :: c2 :: r =>
    if c1 == '/' && c2 == '/' then
      (r.takeWhile (fun c => !netlocEnd c), r.dropWhile (fun c => !netlocEnd c))
    else ([], l)
  | _ => ([], l)

/-- `s.split(ch, 1)` when `ch` occurs, `(s, "")` otherwise — how `urlsplit`
removes the fragment and the query. -/
def splitAtFirstCh (ch : Char) (l : List Char) : List Char × List Char :=
  (l.takeWhile (fun c => !(c == ch)), (l.dropWhile (fun c => !(c == ch))).tail)

/-- Result of `urllib.parse.urlsplit` (no params). -/
structure SplitParts where
  scheme : List Char
  netloc : List Char
  path : List Char
  query : List Char
  fragment : List Char
deriving Repr, DecidableEq

/-- `urllib.parse.urlsplit(url, defaultScheme)` over character lists. -/
def urlsplitCL (defaultScheme url : List Char) : SplitParts :=
  let sp := splitSchemeCL defaultScheme url
  let np := splitNetlocCL sp.2
  let fr := splitAtFirstCh '#' np.2
  let qu := splitAtFirstCh '?' fr.1
  ⟨sp.1, np.1, qu.1, qu.2, fr.2⟩

/-- Last `/`-separated segment of a path (used by `_splitparams`). -/
def lastSegment (l : List Char) : List Char :=
  (l.reverse.takeWhile (fun c => !(c == '/'))).reverse

/-- `urllib.parse._splitparams`: split the path at the first `;` occurring in
the last path segment (the first `;` at all when the path has no `/`). -/
def splitparamsCL (path : List Char) : List Char × List Char :=
  if ';' ∈ path then
    if '/' ∈ path then
      let seg := lastSegment path
      if ';' ∈ seg then
        let pre := path.take (path.length - seg.length)
        let ab := splitAtFirstCh ';' seg
        (pre ++ ab.1, ab.2)
      else (path, [])
    else splitAtFirstCh ';' path
  else (path, [])

/-- Result of `urllib.parse.urlparse` (with params). -/
structure ParseParts where
  scheme : List Char
  netloc : List Char
  path : List Char
  params : List Char
  query : List Char
  fragment : List Char
deriving Repr, DecidableEq

/-- `urllib.parse.urlparse(url, defaultScheme)` over character lists. -/
def urlparseCL (defaultScheme url : List Char) : ParseParts :=
  let s := urlsplitCL defaultScheme url
  let pp := splitparamsCL s.path
  ⟨s.scheme, s.netloc, pp.1, pp.2, s.query, s.fragment⟩

/-- `path.rstrip('/')`. -/
def rstripSlashCL (l : List Char) : List Char :=
  (l.reverse.dropWhile (fun c => c == '/')).reverse

/-- `normalize_url` from `scripts/scrape-apple-hig.py`: parse the URL, strip
the trailing slashes of the path unless the path is exactly `/`, and
reassemble `f"{parsed.scheme}://{parsed.netloc}{path}"` (dropping params,
query and fragment). -/
def normalizeCL (url : List Char) : List Char :=
  let p := urlparseCL [] url
  let path := if p.path = ['/'] then p.path else rstripSlashCL p.path
  p.scheme ++ ':' :: '/' :: '/' :: (p.netloc ++ path)

/-- String-level `urlsplit` (default scheme empty, as in `urlparse(url)`). -/
def urlsplitS (url : String) : SplitParts := urlsplitCL [] url.data

/-- String-level `urlparse` (default scheme empty, as in `urlparse(url)`). -/
def urlparse (url : String) : ParseParts := urlparseCL [] url.data

/-- `normalize_url` at the `String` level. -/
def normalize_url (url : String) : String := ⟨normalizeCL url.data⟩

/-- `urllib.parse.uses_relative`. -/
def usesRelative : List (List Char) :=
  ["", "ftp", "http", "gopher", "nntp", "imap", "wais", "file", "https",
   "shttp", "mms", "prospero", "rtsp", "rtspu", "sftp", "svn", "svn+ssh",
   "ws", "wss"].map String.data

/-- `urllib.parse.uses_netloc`. -/
def usesNetloc : List (List Char) :=
  ["", "ftp", "http", "gopher", "nntp", "telnet", "imap", "wais", "file",
   "mms", "https", "shttp", "snews", "prospero", "rtsp", "rtspu", "rsync",
   "svn", "svn+ssh", "sftp", "nfs", "git", "git+ssh", "ws", "wss",
   "itms-services"].map String.data

/-- `urllib.parse.urlunsplit`. -/
def urlunsplitCL (scheme netloc url query fragment : List Char) : List Char :=
  let url :=
    if netloc ≠ [] ∨ url.take 2 = ['/', '/'] then
      let url := if url ≠ [] ∧ url.head? ≠ some '/' then '/' :: url else url
      '/' :: '/' :: (netloc ++ url)
    else url
  let url := if scheme ≠ [] then scheme ++ ':' :: url else url
  let url := if query ≠ [] then url ++ '?' :: query else url
  if fragment ≠ [] then url ++ '#' :: fragment else url

/-- `urllib.parse.urlunparse`: re-attach params with `;`, then `urlunsplit`. -/
def urlunparseCL (p : ParseParts) : List Char :=
  let url := if p.params ≠ [] then p.path ++ ';' :: p.params else p.path
  urlunsplitCL p.scheme p.netloc url p.query p.fragment

/-- `'/'.join`. -/
def joinSlash (segs : List (List Char)) : List Char :=
  List.intercalate ['/'] segs

/-- `path.split('/')`. -/
def splitOnSlash : List Char → List (List Char)
  | [] => [[]]
  | c :: cs =>
    if c == '/' then [] :: splitOnSlash cs
    else
      match splitOnSlash cs with
      | s :: ss => (c :: s) :: ss
      | [] => [[c]]

/-- `segments[1:-1] = filter(None, segments[1:-1])`: drop empty segments,
keeping the first and last elements untouched. -/
def filterMidSegments (l : List (List Char)) : List (List Char) :=
  match l with
  | [] => []
  | [a] => [a]
  | a :: rest =>
    match rest.getLast? with
    | none => [a]
    | some z => a :: ((rest.dropLast.filter (fun s => s != [])) ++ [z])

/-- The dot-segment resolution loop of `urljoin`: `..` pops (ignoring an
empty stack), `.` is skipped, anything else is appended. -/
def resolveDots (segments : List (List Char)) : List (List Char) :=
  segments.foldl
    (fun acc seg =>
      if seg = ['.', '.'] then acc.dropLast
      else if seg = ['.'] then acc
      else acc ++ [seg]) []

/-- `urllib.parse.urljoin(base, url)` over character lists, following the
CPython implementation (scheme/netloc inheritance, path merging relative to
the base path's directory, dot-segment resolution, trailing-`/` restoration
when the last segment is `.` or `..`). -/
def urljoinCL (base url : List Char) : List Char :=
  if base = [] then url
  else if url = [] then base
  else
    let b := urlparseCL [] base
    let u := urlparseCL b.scheme url
    if u.scheme ≠ b.scheme ∨ u.scheme ∉ usesRelative then url
    else if u.scheme ∈ usesNetloc ∧ u.netloc ≠ [] then urlunparseCL u
    else
      let netloc := if u.scheme ∈ usesNetloc then b.netloc else u.netloc
      if u.path = [] ∧ u.params = [] then
        let query := if u.query = [] then b.query else u.query
        urlunparseCL ⟨u.scheme, netloc, b.path, b.params, query, u.fragment⟩
      else
        let baseParts := splitOnSlash b.path
        let baseParts :=
          if baseParts.getLast? ≠ some [] then baseParts.dropLast else baseParts
        let segments :=
          if u.path.head? = some '/' then splitOnSlash u.path
          else filterMidSegments (baseParts ++ splitOnSlash u.path)
        let resolved := resolveDots segments
        let resolved :=
          if segments.getLast? = some ['.'] ∨ segments.getLast? = some ['.', '.']
          then resolved ++ [[]] else resolved
        let newPath := joinSlash resolved
        let newPath := if newPath = [] then ['/'] else newPath
        urlunparseCL ⟨u.scheme, netloc, newPath, u.params, u.query, u.fragment⟩

/-- `urljoin` at the `String` level. -/
def urljoin (base url : String) : String := ⟨urljoinCL base.data url.data⟩

/-- Python `str.startswith`. -/
def py_startswith (s pre : String) : Bool := pre.data.isPrefixOf s.data

/-- `is_hig_url` from `scripts/scrape-apple-hig.py`: make the URL absolute
against `base_url` when it does not start with `"http"`, then require the
netloc to be exactly `"developer.apple.com"` (a hardcoded literal — the
`base_url` argument is not consulted here) and the path to start with
`hig_pref` as a raw string prefix. -/
def is_hig_url (url base_url hig_pref : String) : Bool :=
  let url := if py_startswith url "http" then url else urljoin base_url url
  let p := urlparse url
  if ¬ (⟨p.netloc⟩ : String) = "developer.apple.com" then false
  else if ¬ py_startswith ⟨p.path⟩ hig_pref then false
  else true

/-- Python `str.removeprefix`. -/
def removePre (l pre : List Char) : List Char :=
  if pre.isPrefixOf l then l.drop pre.length else l

/-- `path.strip('/')`. -/
def stripSlashCL (l : List Char) : List Char :=
  rstripSlashCL (l.dropWhile (fun c => c == '/'))

/-- `url_to_filepath` from `scripts/scrape-apple-hig.py`.  Filesystem paths
are modelled as component lists (`pathlib.Path` normalises away empty and
`.` components when splitting a string on `/`): strip the literal prefix
`"/design/human-interface-guidelines"` from the parsed path; an empty or
`/` remainder maps to `<base>/index.html`, anything else to
`<base>/<segments>/index.html`. -/
def url_to_filepath (url : String) (base_dir : List String) : List String :=
  let p := urlparse url
  let path := removePre p.path "/design/human-interface-guidelines".data
  if path = [] ∨ path = ['/'] then base_dir ++ ["index.html"]
  else
    let segs := (splitOnSlash (stripSlashCL path)).filter
      (fun s => s != [] && s != ['.'])
    (base_dir ++ segs.map (fun s => (⟨s⟩ : String))) ++ ["index.html"]

/-- Python `needle in haystack` substring test. -/
def hasSub (needle : List Char) : List Char → Bool
  | [] => needle.isEmpty
  | c :: cs => needle.isPrefixOf (c :: cs) || hasSub needle cs

/-- One attempt of `page.goto(...)` inside `fetch_with_retry`: either the
rendered content is returned or an exception with message `msg` is raised. -/
inductive AttemptOutcome where
  | ok (content : String)
  | raise (msg : String)

/-- The rate-limit test of `fetch_with_retry`:
`"429" in str(e) or "rate limit" in str(e).lower()`. -/
def isRateMsg (msg : List Char) : Bool :=
  hasSub "429".data msg || hasSub "rate limit".data (lowerStr msg)

/-- The timeout test of `fetch_with_retry`: `"timeout" in str(e).lower()`. -/
def isTimeoutMsg (msg : List Char) : Bool :=
  hasSub "timeout".data (lowerStr msg)

/-- Observable outcome of one call to `fetch_with_retry`: the returned value,
the number of `page.goto` attempts made, and the `asyncio.sleep` backoff
delays (in seconds) in the order they were executed. -/
structure FetchResult where
  result : Option String
  attempts : Nat
  sleeps : List Nat
deriving Repr, DecidableEq

/-- The `for attempt in range(max_retries)` loop of `fetch_with_retry`.
`remaining` counts loop iterations left, `attempt` is the Python loop index,
`sleeps` accumulates executed backoff delays.  Rate-limited attempts sleep
`10 * 2 ** attempt` and `continue`; timeouts return `None` on the last
attempt (`attempt == max_retries - 1`) and otherwise sleep `2 ** attempt`
and `continue`; any other exception returns `None` at once; falling off the
end of the loop returns `None`. -/
def fetchGo (oracle : Nat → AttemptOutcome) (maxRetries : Nat) :
    Nat → Nat → List Nat → FetchResult
  | 0, attempt, sleeps => ⟨none, attempt, sleeps⟩
  | remaining + 1, attempt, sleeps =>
    match oracle attempt with
    | .ok content => ⟨some content, attempt + 1, sleeps⟩
    | .raise msg =>
      if isRateMsg msg.data then
        fetchGo oracle maxRetries remaining (attempt + 1)
          (sleeps ++ [10 * 2 ^ attempt])
      else if isTimeoutMsg msg.data then
        if attempt = maxRetries - 1 then ⟨none, attempt + 1, sleeps⟩
        else fetchGo oracle maxRetries remaining (attempt + 1)
          (sleeps ++ [2 ^ attempt])
      else ⟨none, attempt + 1, sleeps⟩

/-- `fetch_with_retry` from `scripts/scrape-apple-hig.py`, with the attempt
outcomes supplied by `oracle` (attempt index ↦ outcome). -/
def fetch_with_retry (oracle : Nat → AttemptOutcome) (maxRetries : Nat) :
    FetchResult :=
  fetchGo oracle maxRetries maxRetries 0 []

/-- A JSON value, the possible results of `json.loads`. -/
inductive JVal where
  | null
  | bool (b : Bool)
  | num (n : Int)
  | str (s : String)
  | arr (xs : List JVal)
  | obj (fields : List (String × JVal))

/-- The `.visited.json` file as `load_visited_urls` can observe it:
missing, unreadable (`read_text` raises `OSError`), undecodable
(`json.loads` raises `json.JSONDecodeError`), or decoding to a JSON value. -/
inductive ManifestFile where
  | absent
  | readError
  | invalidJson
  | jsonValue (v : JVal)

/-- Python `set(x)` on a decoded JSON value: lists iterate their elements,
dicts their keys, strings their characters; numbers, booleans and `None`
are not iterable and raise `TypeError`.  The resulting set is modelled as
the list of iterated elements (duplicates immaterial for the claims). -/
def pySetOfJson : JVal → Option (List JVal)
  | .arr xs => some xs
  | .obj fields => some (fields.map (fun f => JVal.str f.1))
  | .str s => some (s.data.map (fun c => JVal.str ⟨[c]⟩))
  | _ => none

/-- Outcome of `load_visited_urls`: a visited set plus whether the warning
branch printed, or an uncaught `TypeError` propagating out of the function
(aborting the crawl before it starts). -/
inductive LoadResult where
  | ok (visited : List JVal) (warned : Bool)
  | typeError

/-- `load_visited_urls` from `scripts/scrape-apple-hig.py`: a missing file
yields the empty set; `json.JSONDecodeError` and `OSError` are caught,
warned about, and degrade to the empty set; but `set()` applied to a
non-iterable decoded value raises `TypeError`, which the
`except (json.JSONDecodeError, OSError)` clause does not catch. -/
def load_visited_urls : ManifestFile → LoadResult
  | .absent => .ok [] false
  | .readError => .ok [] true
  | .invalidJson => .ok [] true
  | .jsonValue v =>
    match pySetOfJson v with
    | some xs => .ok xs false
    | none => .typeError

/-- `tracker.base_url`. -/
def base_url : String := "https://developer.apple.com"

/-- `tracker.hig_path_prefix`. -/
def hig_path_pre : String := "/design/human-interface-guidelines"

/-- Result of `fetch_with_retry(page, url)` as the crawl loop sees it:
content (abstracted to the ordered list of `href` attributes BeautifulSoup
would yield from `soup.find_all('a', href=True)`), `None`, or an exception
that `fetch_with_retry` does not catch (e.g. `asyncio.CancelledError`, which
is not an `Exception`) propagating into the loop. -/
inductive FetchOutcome where
  | ok (hrefs : List String)
  | failed
  | raised

/-- The crawl's external world: fetch outcomes per URL, whether a mapped
output file already exists, and whether `filepath.write_text` succeeds
(`False` = raises `OSError`). -/
structure CrawlEnv where
  fetch : String → FetchOutcome
  fileExists : List String → Bool
  writeOk : List String → Bool

/-- Mutable state of `crawl_hig`'s while-loop: `tracker.visited` (a set,
modelled as a duplicate-free list in insertion order), `tracker.queue`,
the trace of URLs passed to `fetch_with_retry`, and the two counters of
`stats`. -/
structure CrawlState where
  visited : List String
  queue : List String
  fetched : List String
  successful : Nat
  failed : Nat
deriving Repr, DecidableEq

/-- `set.add`. -/
def addVisited (v : List String) (x : String) : List String :=
  if x ∈ v then v else v ++ [x]

/-- The link-extraction loop: for each `href` in document order, resolve
against the page URL, and if `is_hig_url` accepts it and its normalization
is not in the visited set, append the normalized link to the queue. -/
def enqueueLinks (visited : List String) (pageUrl : String)
    (hrefs : List String) (queue : List String) : List String :=
  hrefs.foldl
    (fun q href =>
      let absolute := urljoin pageUrl href
      if is_hig_url absolute base_url hig_path_pre then
        let nl := normalize_url absolute
        if nl ∈ visited then q else q ++ [nl]
      else q) queue

/-- How the while-loop ended: queue exhausted, an exception propagated out
of the loop body, or the step budget ran out (the loop is still running —
any terminating execution is captured with enough fuel). -/
inductive LoopExit where
  | normal
  | raised
  | fuelOut
deriving Repr, DecidableEq

/-- The `while tracker.queue:` loop of `crawl_hig`: pop, normalize, skip if
visited, skip (and mark visited) if resuming and the output file exists,
fetch (recording the raw URL in the trace), count a failure and mark
visited on `None` or on a write `OSError`, otherwise enqueue extracted
links, mark visited, and count a success. -/
def crawlLoop (env : CrawlEnv) (resume : Bool) (outDir : List String) :
    Nat → CrawlState → LoopExit × CrawlState
  | 0, st => (.fuelOut, st)
  | fuel + 1, st =>
    match st.queue with
    | [] => (.normal, st)
    | url :: rest =>
      let st1 : CrawlState := { st with queue := rest }
      let normalized := normalize_url url
      if normalized ∈ st1.visited then crawlLoop env resume outDir fuel st1
      else
        let filepath := url_to_filepath normalized outDir
        if resume && env.fileExists filepath then
          crawlLoop env resume outDir fuel
            { st1 with visited := addVisited st1.visited normalized }
        else
          let st2 : CrawlState := { st1 with fetched := st1.fetched ++ [url] }
          match env.fetch url with
          | .raised => (.raised, st2)
          | .failed =>
            crawlLoop env resume outDir fuel
              { st2 with failed := st2.failed + 1,
                         visited := addVisited st2.visited normalized }
          | .ok hrefs =>
            if env.writeOk filepath then
              crawlLoop env resume outDir fuel
                { st2 with queue := enqueueLinks st2.visited url hrefs st2.queue,
                           visited := addVisited st2.visited normalized,
                           successful := st2.successful + 1 }
            else
              crawlLoop env resume outDir fuel
                { st2 with failed := st2.failed + 1,
                           visited := addVisited st2.visited normalized }

/-- Observable outcome of one `crawl_hig` run: how the loop ended, the final
state components, and the payloads of the `save_visited_urls` calls made at
teardown (the `finally:` block runs `save_visited_urls(output_dir,
tracker.visited)` exactly once on every path out of the loop). -/
structure CrawlResult where
  exit : LoopExit
  visited : List String
  fetched : List String
  successful : Nat
  failed : Nat
  saves : List (List String)
deriving Repr, DecidableEq

/-- `crawl_hig` from `scripts/scrape-apple-hig.py`: seed the queue with
`start_url`, initialise `tracker.visited` from the loaded manifest iff
`resume` is on, run the loop, and — in the `finally:` teardown — call
`save_visited_urls` once with the current visited set. -/
def crawl_hig (env : CrawlEnv) (startUrl : String) (outDir : List String)
    (resume : Bool) (loadedVisited : List String) (fuel : Nat) : CrawlResult :=
  let visited0 := if resume then loadedVisited else []
  let r := crawlLoop env resume outDir fuel
    { visited := visited0, queue := [startUrl], fetched := [],
      successful := 0, failed := 0 }
  ⟨r.1, r.2.visited, r.2.fetched, r.2.successful, r.2.failed, [r.2.visited]⟩

/-- An attempt outcome that `fetch_with_retry` classifies as rate-limited
(the first branch of its `except` handler). -/
def rateOutcome : AttemptOutcome → Bool
  | .ok _ => false
  | .raise msg => isRateMsg msg.data

/-- An attempt outcome that `fetch_with_retry` classifies as a timeout (the
second branch: not rate-limited, message contains `"timeout"`). -/
def timeoutOutcome : AttemptOutcome → Bool
  | .ok _ => false
  | .raise msg => !isRateMsg msg.data && isTimeoutMsg msg.data

/-- An oracle whose every attempt fails with an HTTP 429 error. -/
def oracle429 : Nat → AttemptOutcome := fun _ => .raise "HTTP 429 Too Many Requests"

/-- An oracle whose every attempt fails with a Playwright timeout error. -/
def oracleTimeout : Nat → AttemptOutcome := fun _ => .raise "Timeout 30000ms exceeded."

/-- The root HIG URL (the default seed URL, already in normalized form). -/
def higRoot : String := "https://developer.apple.com/design/human-interface-guidelines"

/-- An in-scope child page of the HIG root. -/
def higColor : String := "https://developer.apple.com/design/human-interface-guidelines/color"

/-- A second in-scope child page of the HIG root. -/
def higButtons : String := "https://developer.apple.com/design/human-interface-guidelines/buttons"

/-- An out-of-scope URL (different host). -/
def outOfScope : String := "https://www.apple.com/design"

/-- Crash-safety scenario environment (claim C2): the seed page links to two
in-scope pages `B` and `C`; `B` fetches fine with no further links, `C`'s
fetch fails (`fetch_with_retry` returns `None`). -/
def envC2 : CrawlEnv :=
  { fetch := fun u =>
      if u = higRoot then .ok [higColor, higButtons]
      else if u = higColor then .ok []
      else .failed,
    fileExists := fun _ => false,
    writeOk := fun _ => true }

/-- One-iteration scenario environment (claim C7): the seed page links to one
in-scope URL and one out-of-scope URL, in that order. -/
def envC7 : CrawlEnv :=
  { fetch := fun u => if u = higRoot then .ok [higColor, outOfScope] else .failed,
    fileExists := fun _ => false,
    writeOk := fun _ => true }

/-- Link-ordering scenario environment (claim C7): the seed page links to two
in-scope URLs with an out-of-scope URL between them. -/
def envC7b : CrawlEnv :=
  { fetch := fun u =>
      if u = higRoot then .ok [higColor, outOfScope, higButtons] else .failed,
    fileExists := fun _ => false,
    writeOk := fun _ => true }

/-- Environment for the resume counterexample (claim C4): every fetch fails,
no output files exist. -/
def envC4 : CrawlEnv :=
  { fetch := fun _ => .failed, fileExists := fun _ => false,
    writeOk := fun _ => true }

/-- The HIG root URL with a trailing slash: a URL that is *not* in
normalized form (`normalize_url` strips the slash). -/
def higRootSlash : String :=
  "https://developer.apple.com/design/human-interface-guidelines/"

/- ===================== theorems ===================== -/

theorem fetchGo_rate (oracle : Nat → AttemptOutcome) (maxRetries : Nat) :
    ∀ remaining attempt sleeps,
      (∀ i, i < attempt + remaining → rateOutcome (oracle i) = true) →
      fetchGo oracle maxRetries remaining attempt sleeps =
        ⟨none, attempt + remaining,
         sleeps ++ (List.range' attempt remaining).map (fun i => 10 * 2 ^ i)⟩ := by
  intro remaining
  induction remaining with
  | zero => intro attempt sleeps _; simp [fetchGo]
  | succ r ih =>
    intro attempt sleeps h
    have hrate := h attempt (by omega)
    cases ho : oracle attempt with
    | ok c => rw [ho] at hrate; simp [rateOutcome] at hrate
    | raise msg =>
      rw [ho] at hrate
      simp only [rateOutcome] at hrate
      rw [fetchGo, ho]
      simp only [hrate, if_true]
      rw [ih (attempt + 1) (sleeps ++ [10 * 2 ^ attempt]) (fun i hi => h i (by omega))]
      simp [List.range'_succ, List.append_assoc]
      omega

theorem fetchGo_timeout (oracle : Nat → AttemptOutcome) (maxRetries : Nat) :
    ∀ remaining attempt sleeps,
      attempt + remaining = maxRetries →
      (∀ i, i < maxRetries → timeoutOutcome (oracle i) = true) →
      0 < remaining →
      fetchGo oracle maxRetries remaining attempt sleeps =
        ⟨none, maxRetries,
         sleeps ++ (List.range' attempt (remaining - 1)).map (fun i => 2 ^ i)⟩ := by
  intro remaining
  induction remaining with
  | zero => intro attempt sleeps _ _ hpos; omega
  | succ r ih =>
    intro attempt sleeps hsum h _
    have htime := h attempt (by omega)
    cases ho : oracle attempt with
    | ok c => rw [ho] at htime; simp [timeoutOutcome] at htime
    | raise msg =>
      rw [ho] at htime
      simp only [timeoutOutcome, Bool.and_eq_true, Bool.not_eq_true'] at htime
      rw [fetchGo, ho]
      simp only [htime.1, htime.2, if_true, Bool.false_eq_true, if_false]
      cases r with
      | zero =>
        have : attempt = maxRetries - 1 := by omega
        simp only [this, if_true, List.range'_zero, List.map_nil, List.append_nil,
          if_pos rfl]
        have hm : maxRetries - 1 + 1 = maxRetries := by omega
        rw [hm]
        simp
      | succ r1 =>
        have hne : ¬ attempt = maxRetries - 1 := by omega
        simp only [hne, if_false]
        rw [ih (attempt + 1) (sleeps ++ [2 ^ attempt]) (by omega) h (by omega)]
        simp [List.range'_succ, List.append_assoc]

/-- C1 (amended): when every attempt fails rate-limited, `fetch_with_retry`
sleeps `10 * 2 ** attempt` seconds after each attempt but the attempts
count toward the `max_retries` cap all the same: exactly `maxRetries`
attempts are made, then the call returns `None`. -/
theorem c1_rate_limit_counts_toward_cap (oracle : Nat → AttemptOutcome)
    (maxRetries : Nat)
    (h : ∀ i, i < maxRetries → rateOutcome (oracle i) = true) :
    fetch_with_retry oracle maxRetries =
      ⟨none, maxRetries, (List.range maxRetries).map (fun i => 10 * 2 ^ i)⟩ := by
  unfold fetch_with_retry
  rw [fetchGo_rate oracle maxRetries maxRetries 0 [] (fun i hi => h i (by omega))]
  simp [List.range_eq_range']

/-- C1 witness: concrete all-rate-limited run at the default cap 3. -/
theorem c1_witness :
    fetch_with_retry oracle429 3 = ⟨none, 3, [10, 20, 40]⟩ := by
  have h : ∀ i, i < 3 → rateOutcome (oracle429 i) = true := by
    intro i _
    show rateOutcome (AttemptOutcome.raise "HTTP 429 Too Many Requests") = true
    decide
  rw [c1_rate_limit_counts_toward_cap oracle429 3 h]
  decide

/-- C1 counterexample: under the claim, a URL whose every attempt is
rate-limited is retried indefinitely — the retry count is not bounded by
`max_retries`.  In the code the rate-limit branch `continue`s inside
`for attempt in range(max_retries)`, so after `max_retries = 3` rate-limited
attempts the loop is exhausted and the call returns `None`: the number of
attempts is exactly the cap. -/
theorem c1_counterexample :
    (fetch_with_retry oracle429 3).result = none ∧
    (fetch_with_retry oracle429 3).attempts = 3 ∧
    (fetch_with_retry oracle429 3).sleeps = [10, 20, 40] := by decide

/-- C3: when every attempt times out, `fetch_with_retry` makes exactly
`maxRetries` attempts, sleeping `2 ** attempt` seconds between consecutive
attempts (no sleep after the final attempt), then returns `None` and makes
no further attempt. -/
theorem c3_timeout_retry_cap (oracle : Nat → AttemptOutcome) (maxRetries : Nat)
    (h : ∀ i, i < maxRetries → timeoutOutcome (oracle i) = true) :
    fetch_with_retry oracle maxRetries =
      ⟨none, maxRetries, (List.range (maxRetries - 1)).map (fun i => 2 ^ i)⟩ := by
  cases maxRetries with
  | zero => simp [fetch_with_retry, fetchGo]
  | succ m =>
    unfold fetch_with_retry
    rw [fetchGo_timeout oracle (m + 1) (m + 1) 0 [] (by omega) h (by omega)]
    simp [List.range_eq_range']

/-- C3 witness: concrete all-timeout run at the default cap 3. -/
theorem c3_witness :
    fetch_with_retry oracleTimeout 3 = ⟨none, 3, [1, 2]⟩ := by
  have h : ∀ i, i < 3 → timeoutOutcome (oracleTimeout i) = true := by
    intro i _
    show timeoutOutcome (AttemptOutcome.raise "Timeout 30000ms exceeded.") = true
    decide
  rw [c3_timeout_retry_cap oracleTimeout 3 h]
  decide

/-- C2: `save_visited_urls` is called exactly once, with the current visited
set, on every path out of the crawl loop (the `try`/`finally` around the
loop); in the crash-safety scenario — `A` and `B` fetched successfully,
`C`'s fetch failing — the loop exits normally and the single manifest saved
at teardown is exactly `{A, B, C}` (C marked failed-but-visited). -/
theorem c2_save_once_at_teardown :
    (∀ (env : CrawlEnv) (startUrl : String) (outDir : List String)
       (resume : Bool) (loaded : List String) (fuel : Nat),
       (crawl_hig env startUrl outDir resume loaded fuel).saves =
         [(crawl_hig env startUrl outDir resume loaded fuel).visited]) ∧
    (crawl_hig envC2 higRoot ["hig"] false [] 10).exit = .normal ∧
    (crawl_hig envC2 higRoot ["hig"] false [] 10).saves =
      [[higRoot, higColor, higButtons]] ∧
    (crawl_hig envC2 higRoot ["hig"] false [] 10).failed = 1 := by
  refine ⟨fun env s o r l f => rfl, ?_, ?_, ?_⟩ <;> decide

/-- C7: starting from seed `A` whose page links to exactly one in-scope URL
`B` and one out-of-scope URL `C`, after one full loop iteration the frontier
contains only `B`, the visited set is `{A}`, successful = 1, failed = 0;
moreover extracted in-scope links are appended to the frontier in document
order. -/
theorem c7_first_iteration :
    (crawlLoop envC7 false ["hig"] 1
        ⟨[], [higRoot], [], 0, 0⟩).2 =
      ⟨[higRoot], [higColor], [higRoot], 1, 0⟩ ∧
    (crawlLoop envC7b false ["hig"] 1
        ⟨[], [higRoot], [], 0, 0⟩).2.queue = [higColor, higButtons] := by
  constructor <;> decide

/-- C8 counterexample: a manifest holding valid JSON of a non-iterable type
(`42`, `true`, `null`) makes `set(json.loads(...))` raise `TypeError`, which
`except (json.JSONDecodeError, OSError)` does not catch — so
`load_visited_urls` can abort the run. -/
theorem c8_counterexample :
    load_visited_urls (.jsonValue (.num 42)) = .typeError ∧
    load_visited_urls (.jsonValue (.bool true)) = .typeError ∧
    load_visited_urls (.jsonValue .null) = .typeError :=
  ⟨rfl, rfl, rfl⟩

/-- C8 (amended): an absent manifest yields the empty set, and an `OSError`
while reading or a `json.JSONDecodeError` while decoding is caught, logged
as a warning, and degrades to the empty set; a decoded JSON array yields its
elements.  (Only a decoded non-iterable value escapes, per the
counterexample.) -/
theorem c8_load_degrades (xs : List JVal) :
    load_visited_urls .absent = .ok [] false ∧
    load_visited_urls .readError = .ok [] true ∧
    load_visited_urls .invalidJson = .ok [] true ∧
    load_visited_urls (.jsonValue (.arr xs)) = .ok xs false :=
  ⟨rfl, rfl, rfl, rfl⟩

/-- C9: `url_to_filepath` maps the scope root to `<out>/index.html` and
`<pre>/components` to `<out>/components/index.html`, and is a pure function
of the normalized URL and output directory (equal inputs give equal
outputs). -/
theorem c9_filepath_mapping :
    (∀ out : List String, url_to_filepath higRoot out = out ++ ["index.html"]) ∧
    (∀ out : List String,
       url_to_filepath
         "https://developer.apple.com/design/human-interface-guidelines/components"
         out = out ++ ["components", "index.html"]) ∧
    (∀ (u1 u2 : String) (out : List String), u1 = u2 →
       url_to_filepath u1 out = url_to_filepath u2 out) := by
  refine ⟨fun out => rfl, fun out => ?_, fun u1 u2 out h => by rw [h]⟩
  show (out ++ ["components"]) ++ ["index.html"] = out ++ ["components", "index.html"]
  simp

/-- C9 witness: the two mappings at `out = ["hig"]`, and determinism applied
at the root URL. -/
theorem c9_witness :
    url_to_filepath higRoot ["hig"] = ["hig"] ++ ["index.html"] ∧
    url_to_filepath
      "https://developer.apple.com/design/human-interface-guidelines/components"
      ["hig"] = ["hig"] ++ ["components", "index.html"] ∧
    url_to_filepath higRoot ["hig"] = url_to_filepath higRoot ["hig"] :=
  ⟨c9_filepath_mapping.1 ["hig"], c9_filepath_mapping.2.1 ["hig"],
   c9_filepath_mapping.2.2 higRoot higRoot ["hig"] rfl⟩

/-- C10: the scope check is a raw string-prefix test with no path-segment
boundary: any URL on host `developer.apple.com` whose path merely begins
with the characters of the prefix is accepted by `is_hig_url`; in
particular `/design/human-interface-guidelines-archive` is in scope, and
`url_to_filepath` strips only the literal prefix, mapping it to the
components `-archive`, `index.html` under the output directory. -/
theorem c10_raw_prefix_scope :
    (∀ url : String, py_startswith url "http" = true →
       (⟨(urlparse url).netloc⟩ : String) = "developer.apple.com" →
       py_startswith ⟨(urlparse url).path⟩ hig_path_pre = true →
       is_hig_url url base_url hig_path_pre = true) ∧
    is_hig_url
      "https://developer.apple.com/design/human-interface-guidelines-archive"
      base_url hig_path_pre = true ∧
    (∀ out : List String,
       url_to_filepath
         "https://developer.apple.com/design/human-interface-guidelines-archive"
         out = out ++ ["-archive", "index.html"]) := by
  refine ⟨fun url h1 h2 h3 => ?_, by decide, fun out => ?_⟩
  · unfold is_hig_url
    simp only [h1, if_true]
    simp [h2, h3]
  · show (out ++ ["-archive"]) ++ ["index.html"] = out ++ ["-archive", "index.html"]
    simp

/-- C10 witness: the general raw-prefix acceptance applied to the archive
URL. -/
theorem c10_witness :
    is_hig_url
      "https://developer.apple.com/design/human-interface-guidelines-archive"
      base_url hig_path_pre = true :=
  c10_raw_prefix_scope.1
    "https://developer.apple.com/design/human-interface-guidelines-archive"
    (by decide) (by decide) (by decide)

/-- C4 counterexample: the loaded visited set contains the HIG root with a
trailing slash (not in normalized form); with resume enabled the crawl
still invokes the Fetcher for that exact URL, because the skip test compares
`normalize_url(url)` — which differs from the stored string — against the
visited set. -/
theorem c4_counterexample :
    higRootSlash ∈ [higRootSlash] ∧
    higRootSlash ∈
      (crawl_hig envC4 higRootSlash ["hig"] true [higRootSlash] 3).fetched := by
  constructor <;> decide

/-- C5 counterexample: with `baseHost = "https://example.com"`, a URL whose
host equals that base host and whose path starts with the prefix is still
rejected — `is_hig_url` compares the host against the hardcoded literal
`"developer.apple.com"`, not against its `base_url` argument. -/
theorem c5_counterexample :
    (⟨(urlparse "https://example.com/design/human-interface-guidelines").netloc⟩ : String) =
      "example.com" ∧
    py_startswith
      (⟨(urlparse "https://example.com/design/human-interface-guidelines").path⟩ : String)
      "/design/human-interface-guidelines" = true ∧
    is_hig_url "https://example.com/design/human-interface-guidelines"
      "https://example.com" "/design/human-interface-guidelines" = false := by
  refine ⟨by decide, by decide, by decide⟩

/-- C6 counterexample: `normalize_url` is not idempotent on scheme-less URLs
(the reassembled `"://..."` re-parses differently) nor on URLs whose last
path segment gains a `;` parameter split only after the trailing slash is
stripped. -/
theorem c6_counterexample :
    normalize_url (normalize_url "/design/human-interface-guidelines/") ≠
      normalize_url "/design/human-interface-guidelines/" ∧
    normalize_url (normalize_url "http://h/a;p/") ≠ normalize_url "http://h/a;p/" := by
  constructor <;> decide

/-- C5 (amended): `is_hig_url(url, base_url, pre)` is true iff the URL —
made absolute against `base_url` when it does not start with `"http"` —
has host exactly the hardcoded literal `"developer.apple.com"` (the
`base_url` argument plays no role in the host comparison) and a path
starting with `pre`. -/
theorem c5_scope_characterization (url b pre : String) :
    is_hig_url url b pre = true ↔
      ((⟨(urlparse (if py_startswith url "http" then url
                    else urljoin b url)).netloc⟩ : String) =
         "developer.apple.com" ∧
       py_startswith
         (⟨(urlparse (if py_startswith url "http" then url
                      else urljoin b url)).path⟩ : String) pre = true) := by
  unfold is_hig_url
  split_ifs <;> simp_all

theorem mem_addVisited {v : List String} {x : String} (y : String) (h : x ∈ v) :
    x ∈ addVisited v y := by
  unfold addVisited
  split
  · exact h
  · exact List.mem_append_left _ h

theorem fetched_inv_extend {V fetched : List String} {url : String}
    (h2 : ∀ f ∈ fetched, normalize_url f ∉ V)
    (hnew : normalize_url url ∉ V) :
    ∀ f ∈ fetched ++ [url], normalize_url f ∉ V := by
  intro f hf
  rcases List.mem_append.mp hf with h | h
  · exact h2 f h
  · have := List.mem_singleton.mp h
    subst this
    exact hnew

/-- Loop invariant: the visited set only grows (it always contains the
initially loaded set `V`), and every URL ever handed to `fetch_with_retry`
had, at fetch time, a normalization outside the visited set — hence outside
`V`. -/
theorem crawlLoop_inv (env : CrawlEnv) (resume : Bool) (outDir : List String)
    (V : List String) :
    ∀ (fuel : Nat) (st : CrawlState),
      (∀ v ∈ V, v ∈ st.visited) →
      (∀ f ∈ st.fetched, normalize_url f ∉ V) →
      (∀ v ∈ V, v ∈ (crawlLoop env resume outDir fuel st).2.visited) ∧
      (∀ f ∈ (crawlLoop env resume outDir fuel st).2.fetched,
        normalize_url f ∉ V) := by
  intro fuel
  induction fuel with
  | zero => intro st h1 h2; exact ⟨h1, h2⟩
  | succ n ih =>
    intro st h1 h2
    rw [crawlLoop]
    cases hq : st.queue with
    | nil => exact ⟨h1, h2⟩
    | cons url rest =>
      simp only
      by_cases hv : normalize_url url ∈ st.visited
      · simp only [hv, if_true]
        exact ih _ h1 h2
      · simp only [hv, if_false]
        have hnew : normalize_url url ∉ V := fun hmem => hv (h1 _ hmem)
        by_cases hr : (resume && env.fileExists
            (url_to_filepath (normalize_url url) outDir)) = true
        · simp only [hr, if_true]
          exact ih _ (fun v hm => mem_addVisited _ (h1 v hm)) h2
        · simp only [hr, if_false]
          cases hf : env.fetch url with
          | raised => exact ⟨h1, fetched_inv_extend h2 hnew⟩
          | failed =>
            exact ih _ (fun v hm => mem_addVisited _ (h1 v hm))
              (fetched_inv_extend h2 hnew)
          | ok hrefs =>
            by_cases hw : env.writeOk
                (url_to_filepath (normalize_url url) outDir) = true
            · simp only [hw, if_true]
              exact ih _ (fun v hm => mem_addVisited _ (h1 v hm))
                (fetched_inv_extend h2 hnew)
            · simp only [hw, if_false]
              exact ih _ (fun v hm => mem_addVisited _ (h1 v hm))
                (fetched_inv_extend h2 hnew)

/-- C4 (amended): for every URL `u` of the loaded visited set that is in
normalized form (`normalize_url u = u` — true of every manifest the scraper
itself writes, which stores only normalization outputs), a resume-enabled
crawl never invokes the Fetcher for `u`. -/
theorem c4_resume_never_refetches_normalized (env : CrawlEnv)
    (startUrl : String) (outDir : List String) (loaded : List String)
    (fuel : Nat) (u : String) (hu : u ∈ loaded)
    (hnorm : normalize_url u = u) :
    u ∉ (crawl_hig env startUrl outDir true loaded fuel).fetched := by
  intro hmem
  have hinv := crawlLoop_inv env true outDir loaded fuel
    { visited := loaded, queue := [startUrl], fetched := [],
      successful := 0, failed := 0 }
    (fun v hv => hv) (fun f hf => absurd hf (List.not_mem_nil f))
  have : normalize_url u ∉ loaded := hinv.2 u hmem
  rw [hnorm] at this
  exact this hu

/-- C4 witness: with a correctly normalized manifest entry, the Fetcher is
never invoked for it. -/
theorem c4_witness :
    higRoot ∈ [higRoot] ∧ normalize_url higRoot = higRoot ∧
    higRoot ∉ (crawl_hig envC4 higRoot ["hig"] true [higRoot] 3).fetched :=
  ⟨List.mem_singleton.mpr rfl, by decide,
   c4_resume_never_refetches_normalized envC4 higRoot ["hig"] [higRoot] 3
     higRoot (List.mem_singleton.mpr rfl) (by decide)⟩

theorem pyLower_vals : ∀ q ∈ lowerPairs,
    (∀ p ∈ lowerPairs, (p.1 == q.2) = false) ∧
    schemeChar q.2 = true ∧ (q.2).isAlpha = true := by decide

theorem pyLower_eq_of_none {c : Char}
    (h : lowerPairs.find? (fun p => p.1 == c) = none) : pyLower c = c := by
  unfold pyLower
  rw [h]
  rfl

theorem pyLower_eq_of_some {c : Char} {q : Char × Char}
    (h : lowerPairs.find? (fun p => p.1 == c) = some q) : pyLower c = q.2 := by
  unfold pyLower
  rw [h]
  rfl

theorem pyLower_pyLower (c : Char) : pyLower (pyLower c) = pyLower c := by
  cases hf : lowerPairs.find? (fun p => p.1 == c) with
  | none => simp only [pyLower_eq_of_none hf]
  | some q =>
    rw [pyLower_eq_of_some hf]
    have hq := List.mem_of_find?_eq_some hf
    have hnone : lowerPairs.find? (fun p => p.1 == q.2) = none := by
      rw [List.find?_eq_none]
      intro p hp
      simp [(pyLower_vals q hq).1 p hp]
    exact pyLower_eq_of_none hnone

theorem schemeChar_pyLower {c : Char} (h : schemeChar c = true) :
    schemeChar (pyLower c) = true := by
  cases hf : lowerPairs.find? (fun p => p.1 == c) with
  | none => rw [pyLower_eq_of_none hf]; exact h
  | some q =>
    rw [pyLower_eq_of_some hf]
    exact (pyLower_vals q (List.mem_of_find?_eq_some hf)).2.1

theorem isAlpha_pyLower {c : Char} (h : c.isAlpha = true) :
    (pyLower c).isAlpha = true := by
  cases hf : lowerPairs.find? (fun p => p.1 == c) with
  | none => rw [pyLower_eq_of_none hf]; exact h
  | some q =>
    rw [pyLower_eq_of_some hf]
    exact (pyLower_vals q (List.mem_of_find?_eq_some hf)).2.2

theorem takeScheme_chars :
    ∀ (l s r : List Char), takeScheme l = some (s, r) →
      ∀ c ∈ s, schemeChar c = true := by
  intro l
  induction l with
  | nil => intro s r h; simp [takeScheme] at h
  | cons a as ih =>
    intro s r h
    unfold takeScheme at h
    by_cases ha : (a == ':') = true
    · rw [if_pos ha] at h
      simp only [Option.some.injEq, Prod.mk.injEq] at h
      obtain ⟨hseq, hreq⟩ := h
      subst hseq
      intro c hc
      simp at hc
    · rw [if_neg (by simp_all)] at h
      by_cases hs : schemeChar a = true
      · rw [if_pos hs] at h
        cases hm : takeScheme as with
        | none => rw [hm] at h; simp at h
        | some pr =>
          rw [hm] at h
          obtain ⟨s0, r0⟩ := pr
          simp only [Option.some.injEq, Prod.mk.injEq] at h
          obtain ⟨hseq, hreq⟩ := h
          subst hseq
          intro c hc
          rcases List.mem_cons.mp hc with rfl | hc0
          · exact hs
          · exact ih s0 r0 hm c hc0
      · rw [if_neg hs] at h
        simp at h

theorem takeScheme_append (s r : List Char)
    (h : ∀ c ∈ s, schemeChar c = true) :
    takeScheme (s ++ ':' :: r) = some (s, r) := by
  induction s with
  | nil => rfl
  | cons a as ih =>
    have hs := h a (List.mem_cons_self a as)
    have hne : (a == ':') = false := by
      cases hbe : (a == ':') with
      | false => rfl
      | true =>
        have : a = ':' := by simpa using hbe
        subst this
        simp [schemeChar] at hs
    rw [List.cons_append]
    unfold takeScheme
    rw [if_neg (by simp_all), if_pos hs,
      ih (fun c hc => h c (List.mem_cons_of_mem _ hc))]

theorem takeWhile_append_all {p : Char → Bool} (xs ys : List Char)
    (h : ∀ x ∈ xs, p x = true) :
    (xs ++ ys).takeWhile p = xs ++ ys.takeWhile p := by
  induction xs with
  | nil => simp
  | cons a as ih =>
    rw [List.cons_append, List.takeWhile_cons,
      if_pos (h a (List.mem_cons_self a as)),
      ih (fun x hx => h x (List.mem_cons_of_mem _ hx)), List.cons_append]

theorem dropWhile_append_all {p : Char → Bool} (xs ys : List Char)
    (h : ∀ x ∈ xs, p x = true) :
    (xs ++ ys).dropWhile p = ys.dropWhile p := by
  induction xs with
  | nil => simp
  | cons a as ih =>
    rw [List.cons_append, List.dropWhile_cons,
      if_pos (h a (List.mem_cons_self a as)),
      ih (fun x hx => h x (List.mem_cons_of_mem _ hx))]

theorem takeWhile_all {p : Char → Bool} {l : List Char}
    (h : ∀ x ∈ l, p x = true) : l.takeWhile p = l := by
  induction l with
  | nil => rfl
  | cons a as ih =>
    rw [List.takeWhile_cons, if_pos (h a (List.mem_cons_self a as)),
      ih (fun x hx => h x (List.mem_cons_of_mem _ hx))]

theorem dropWhile_all {p : Char → Bool} {l : List Char}
    (h : ∀ x ∈ l, p x = true) : l.dropWhile p = [] := by
  induction l with
  | nil => rfl
  | cons a as ih =>
    rw [List.dropWhile_cons, if_pos (h a (List.mem_cons_self a as)),
      ih (fun x hx => h x (List.mem_cons_of_mem _ hx))]

theorem head?_dropWhile_false {p : Char → Bool} (l : List Char) :
    ∀ x, (l.dropWhile p).head? = some x → p x = false := by
  induction l with
  | nil => intro x h; simp [List.dropWhile] at h
  | cons a as ih =>
    intro x h
    rw [List.dropWhile_cons] at h
    by_cases hp : p a = true
    · rw [if_pos hp] at h
      exact ih x h
    · rw [if_neg hp] at h
      have : a = x := by simpa using h
      subst this
      exact Bool.not_eq_true _ ▸ (by simpa using hp)

theorem rstripSlash_last_ne (l : List Char) :
    ∀ x, (rstripSlashCL l).getLast? = some x → (x == '/') = false := by
  intro x h
  unfold rstripSlashCL at h
  rw [List.getLast?_reverse] at h
  exact head?_dropWhile_false _ x h

theorem rstripSlash_id (l : List Char)
    (h : ∀ x, l.getLast? = some x → (x == '/') = false) :
    rstripSlashCL l = l := by
  unfold rstripSlashCL
  cases hl : l.reverse with
  | nil =>
    have : l = [] := List.reverse_eq_nil_iff.mp hl
    subst this
    rfl
  | cons a as =>
    have ha : l.getLast? = some a := by
      rw [← List.head?_reverse, hl]
      rfl
    rw [List.dropWhile_cons, if_neg (by simp [h a ha])]
    rw [← hl, List.reverse_reverse]

theorem mem_rstripSlash {l : List Char} {x : Char}
    (h : x ∈ rstripSlashCL l) : x ∈ l := by
  unfold rstripSlashCL at h
  rw [List.mem_reverse] at h
  exact List.mem_reverse.mp ((List.dropWhile_sublist _).subset h)

theorem splitAtFirstCh_of_not_mem {ch : Char} {l : List Char} (h : ch ∉ l) :
    splitAtFirstCh ch l = (l, []) := by
  unfold splitAtFirstCh
  have hp : ∀ x ∈ l, (!(x == ch)) = true := by
    intro x hx
    have : x ≠ ch := fun e => h (e ▸ hx)
    simp [this]
  rw [takeWhile_all hp, dropWhile_all hp]
  rfl

theorem splitparamsCL_of_not_mem {l : List Char} (h : ';' ∉ l) :
    splitparamsCL l = (l, []) := by
  unfold splitparamsCL
  rw [if_neg h]

theorem getLast?_of_suffix {s l : List Char} (h : s <:+ l) (hne : s ≠ []) :
    s.getLast? = l.getLast? := by
  obtain ⟨t, rfl⟩ := h
  rw [List.getLast?_append]
  cases hs : s.getLast? with
  | none => exact absurd (List.getLast?_eq_none_iff.mp hs) hne
  | some x => rw [Option.or_some]

theorem splitSchemeCL_spec (u s r : List Char)
    (h : splitSchemeCL [] u = (s, r)) (hne : s ≠ []) :
    (∀ c ∈ s, schemeChar c = true) ∧ s.map pyLower = s ∧
    ∃ hd tl, s = hd :: tl ∧ hd.isAlpha = true := by
  unfold splitSchemeCL at h
  cases hts : takeScheme u with
  | none =>
    rw [hts] at h
    simp only [Prod.mk.injEq] at h
    exact absurd h.1.symm hne
  | some pr =>
    obtain ⟨s0, r0⟩ := pr
    rw [hts] at h
    cases s0 with
    | nil =>
      simp only [Prod.mk.injEq] at h
      exact absurd h.1.symm hne
    | cons c t =>
      by_cases hc : c.isAlpha = true
      · simp only [hc, if_true, Prod.mk.injEq] at h
        obtain ⟨hseq, hreq⟩ := h
        subst hseq
        have hchars := takeScheme_chars u (c :: t) r0 hts
        refine ⟨?_, ?_, pyLower c, t.map pyLower, by simp, isAlpha_pyLower hc⟩
        · intro x hx
          rcases List.mem_map.mp hx with ⟨y, hy, rfl⟩
          exact schemeChar_pyLower (hchars y hy)
        · rw [List.map_map]
          exact List.map_congr_left (fun a _ => pyLower_pyLower a)
      · simp only [if_neg hc, Prod.mk.injEq] at h
        exact absurd h.1.symm hne

theorem splitSchemeCL_reassemble (d s r : List Char)
    (hsc : ∀ c ∈ s, schemeChar c = true)
    (hlow : s.map pyLower = s)
    (hhd : ∃ hd tl, s = hd :: tl ∧ hd.isAlpha = true) :
    splitSchemeCL d (s ++ ':' :: r) = (s, r) := by
  obtain ⟨hd, tl, hseq, halpha⟩ := hhd
  unfold splitSchemeCL
  rw [takeScheme_append s r hsc, hseq]
  simp only [halpha, if_true]
  rw [← hseq, hlow]

theorem splitNetlocCL_fst (l : List Char) :
    ∀ c ∈ (splitNetlocCL l).1, netlocEnd c = false := by
  unfold splitNetlocCL
  cases l with
  | nil => simp
  | cons c1 t =>
    cases t with
    | nil => simp
    | cons c2 r =>
      by_cases h : (c1 == '/' && c2 == '/') = true
      · simp only [h, if_true]
        intro c hc
        have := List.mem_takeWhile_imp hc
        simpa using this
      · simp [h]

theorem splitNetlocCL_slashes (r : List Char) :
    splitNetlocCL ('/' :: '/' :: r) =
      (r.takeWhile (fun c => !netlocEnd c),
       r.dropWhile (fun c => !netlocEnd c)) := by
  unfold splitNetlocCL
  simp

theorem urlsplitCL_eq (d u : List Char) :
    urlsplitCL d u =
      ⟨(splitSchemeCL d u).1,
       (splitNetlocCL (splitSchemeCL d u).2).1,
       (splitAtFirstCh '?'
         (splitAtFirstCh '#' (splitNetlocCL (splitSchemeCL d u).2).2).1).1,
       (splitAtFirstCh '?'
         (splitAtFirstCh '#' (splitNetlocCL (splitSchemeCL d u).2).2).1).2,
       (splitAtFirstCh '#' (splitNetlocCL (splitSchemeCL d u).2).2).2⟩ := rfl

theorem urlsplitCL_netloc_spec (d u : List Char) :
    ∀ c ∈ (urlsplitCL d u).netloc, netlocEnd c = false := by
  rw [urlsplitCL_eq]
  exact splitNetlocCL_fst _

theorem urlsplitCL_path_no_qm (d u : List Char) :
    '?' ∉ (urlsplitCL d u).path := by
  rw [urlsplitCL_eq]
  intro hmem
  have := List.mem_takeWhile_imp hmem
  simp at this

theorem urlsplitCL_path_no_hash (d u : List Char) :
    '#' ∉ (urlsplitCL d u).path := by
  rw [urlsplitCL_eq]
  intro hmem
  have hmem2 := (List.takeWhile_sublist _).subset hmem
  have := List.mem_takeWhile_imp hmem2
  simp at this

theorem urlsplitCL_scheme_spec (u : List Char)
    (h : (urlsplitCL [] u).scheme ≠ []) :
    (∀ c ∈ (urlsplitCL [] u).scheme, schemeChar c = true) ∧
    (urlsplitCL [] u).scheme.map pyLower = (urlsplitCL [] u).scheme ∧
    ∃ hd tl, (urlsplitCL [] u).scheme = hd :: tl ∧ hd.isAlpha = true := by
  have hproj : (urlsplitCL [] u).scheme = (splitSchemeCL [] u).1 := rfl
  rw [hproj] at h ⊢
  exact splitSchemeCL_spec u (splitSchemeCL [] u).1 (splitSchemeCL [] u).2 rfl h

/-- Re-parsing the string `scheme ++ "://" ++ netloc ++ path'` produced by
`normalize_url`: the scheme is recovered verbatim, the netloc extends over
the original netloc into any leading non-`/?#` characters of the path, and
the remainder is the path (no query, no fragment). -/
theorem urlsplitCL_reassembled (s n p' : List Char)
    (hsc : ∀ c ∈ s, schemeChar c = true)
    (hlow : s.map pyLower = s)
    (hhd : ∃ hd tl, s = hd :: tl ∧ hd.isAlpha = true)
    (hn : ∀ c ∈ n, netlocEnd c = false)
    (hp1 : '#' ∉ p') (hp2 : '?' ∉ p') :
    urlsplitCL [] (s ++ ':' :: '/' :: '/' :: (n ++ p')) =
      ⟨s, n ++ p'.takeWhile (fun c => !netlocEnd c),
       p'.dropWhile (fun c => !netlocEnd c), [], []⟩ := by
  rw [urlsplitCL_eq]
  rw [splitSchemeCL_reassemble [] s ('/' :: '/' :: (n ++ p')) hsc hlow hhd]
  simp only
  rw [splitNetlocCL_slashes]
  simp only
  rw [takeWhile_append_all n p' (fun x hx => by simp [hn x hx]),
      dropWhile_append_all n p' (fun x hx => by simp [hn x hx])]
  have hsub : ∀ x ∈ p'.dropWhile (fun c => !netlocEnd c), x ∈ p' :=
    fun x hx => (List.dropWhile_sublist _).subset hx
  rw [splitAtFirstCh_of_not_mem (fun hmem => hp1 (hsub _ hmem))]
  simp only
  rw [splitAtFirstCh_of_not_mem (fun hmem => hp2 (hsub _ hmem))]

theorem urlparseCL_of_no_semi (d u : List Char)
    (h : ';' ∉ (urlsplitCL d u).path) :
    urlparseCL d u =
      ⟨(urlsplitCL d u).scheme, (urlsplitCL d u).netloc,
       (urlsplitCL d u).path, [], (urlsplitCL d u).query,
       (urlsplitCL d u).fragment⟩ := by
  simp only [urlparseCL]
  rw [splitparamsCL_of_not_mem h]

theorem normalizeCL_of_no_semi (u : List Char)
    (h : ';' ∉ (urlsplitCL [] u).path) :
    normalizeCL u =
      (urlsplitCL [] u).scheme ++ ':' :: '/' :: '/' ::
        ((urlsplitCL [] u).netloc ++
         (if (urlsplitCL [] u).path = ['/'] then (urlsplitCL [] u).path
          else rstripSlashCL (urlsplitCL [] u).path)) := by
  simp only [normalizeCL]
  rw [urlparseCL_of_no_semi [] u h]

/-- The path component recovered when re-parsing a normalized URL needs no
further trailing-slash stripping: it is stable under the `rstrip('/')`
step of a second `normalize_url`. -/
theorem dw_rstrip_stable (P : List Char) :
    (if ((if P = ['/'] then P else rstripSlashCL P).dropWhile
          (fun c => !netlocEnd c)) = ['/']
     then ((if P = ['/'] then P else rstripSlashCL P).dropWhile
          (fun c => !netlocEnd c))
     else rstripSlashCL ((if P = ['/'] then P else rstripSlashCL P).dropWhile
          (fun c => !netlocEnd c))) =
      (if P = ['/'] then P else rstripSlashCL P).dropWhile
        (fun c => !netlocEnd c) := by
  by_cases hP : P = ['/']
  · rw [if_pos hP, hP]
    rfl
  · rw [if_neg hP]
    by_cases hnil : (rstripSlashCL P).dropWhile (fun c => !netlocEnd c) = []
    · rw [hnil]
      rfl
    · by_cases hsl : (rstripSlashCL P).dropWhile (fun c => !netlocEnd c) = ['/']
      · exfalso
        have hlast := getLast?_of_suffix
          (List.dropWhile_suffix (fun c => !netlocEnd c)) hnil
        rw [hsl] at hlast
        have hlast2 : (rstripSlashCL P).getLast? = some '/' := by
          rw [← hlast]
          rfl
        have := rstripSlash_last_ne P '/' hlast2
        simp at this
      · rw [if_neg hsl]
        apply rstripSlash_id
        intro x hx
        have hlast := getLast?_of_suffix
          (List.dropWhile_suffix (fun c => !netlocEnd c)) hnil
        rw [hlast] at hx
        exact rstripSlash_last_ne P x hx

/-- `normalize_url` is idempotent on character lists whose parse has a
nonempty scheme and a `;`-free path. -/
theorem normalizeCL_idem (u : List Char)
    (h1 : (urlsplitCL [] u).scheme ≠ [])
    (h2 : ';' ∉ (urlsplitCL [] u).path) :
    normalizeCL (normalizeCL u) = normalizeCL u := by
  obtain ⟨hsc, hlow, hhd⟩ := urlsplitCL_scheme_spec u h1
  have hn := urlsplitCL_netloc_spec [] u
  have hmem' : ∀ x ∈ (if (urlsplitCL [] u).path = ['/'] then (urlsplitCL [] u).path
      else rstripSlashCL (urlsplitCL [] u).path), x ∈ (urlsplitCL [] u).path := by
    intro x hx
    by_cases hP : (urlsplitCL [] u).path = ['/']
    · rw [if_pos hP] at hx
      exact hx
    · rw [if_neg hP] at hx
      exact mem_rstripSlash hx
  have hre : urlsplitCL [] (normalizeCL u) =
      ⟨(urlsplitCL [] u).scheme,
       (urlsplitCL [] u).netloc ++
         ((if (urlsplitCL [] u).path = ['/'] then (urlsplitCL [] u).path
           else rstripSlashCL (urlsplitCL [] u).path).takeWhile
           (fun c => !netlocEnd c)),
       ((if (urlsplitCL [] u).path = ['/'] then (urlsplitCL [] u).path
         else rstripSlashCL (urlsplitCL [] u).path).dropWhile
         (fun c => !netlocEnd c)), [], []⟩ := by
    rw [normalizeCL_of_no_semi u h2]
    exact urlsplitCL_reassembled _ _ _ hsc hlow hhd hn
      (fun hx => urlsplitCL_path_no_hash [] u (hmem' _ hx))
      (fun hx => urlsplitCL_path_no_qm [] u (hmem' _ hx))
  have hsemi2 : ';' ∉ (urlsplitCL [] (normalizeCL u)).path := by
    rw [hre]
    intro hx
    exact h2 (hmem' _ ((List.dropWhile_sublist _).subset hx))
  rw [normalizeCL_of_no_semi (normalizeCL u) hsemi2, hre]
  simp only
  rw [dw_rstrip_stable (urlsplitCL [] u).path]
  rw [normalizeCL_of_no_semi u h2]
  rw [List.append_assoc, List.takeWhile_append_dropWhile]

/-- C6 (amended): `normalize_url` is idempotent on every URL whose parse
yields a nonempty scheme and whose path contains no `;` — in particular on
every absolute `http(s)` URL the crawler handles.  (The counterexample shows
both restrictions are needed: scheme-less URLs and `;`-parameter paths break
idempotence.) -/
theorem c6_normalize_idempotent (u : String)
    (h1 : (urlsplitS u).scheme ≠ [])
    (h2 : ';' ∉ (urlsplitS u).path) :
    normalize_url (normalize_url u) = normalize_url u := by
  show (⟨normalizeCL (normalize_url u).data⟩ : String) = ⟨normalizeCL u.data⟩
  have hd : (normalize_url u).data = normalizeCL u.data := rfl
  rw [hd, normalizeCL_idem u.data h1 h2]

/-- C6 witness: idempotence applied at a concrete absolute URL with a
trailing slash. -/
theorem c6_witness :
    ((urlsplitS "https://developer.apple.com/design/").scheme ≠ [] ∧
     ';' ∉ (urlsplitS "https://developer.apple.com/design/").path) ∧
    normalize_url (normalize_url "https://developer.apple.com/design/") =
      normalize_url "https://developer.apple.com/design/" :=
  ⟨by decide, c6_normalize_idempotent "https://developer.apple.com/design/"
    (by decide) (by decide)⟩

